import Mathlib

/-!
Verification of the Cross-Representation Alignment & Mapping Engine of
`ocr_proofreading.py` (DigitizationTools).

The Python source is shallowly embedded: text buffers are `List Char`
(one element per Unicode scalar value, matching Python's `str` indexing),
pixel coordinates are `Int` (the box arithmetic of the source is closed
over integers; the one fractional quantity, a box's horizontal center
`x + w/2`, is computed in `ℚ`), and every function is a computable Lean
`def` translated from the corresponding Python function.  The edit-script
producer used by the source, `difflib.SequenceMatcher` with
`autojunk=False` and no junk predicate, is embedded from its reference
algorithm (longest-matching-block recursion); loop constructs whose
iteration counts are data-dependent take an explicit fuel argument that
is always called with a bound large enough to never be reached.
-/

namespace OCRProof

/-! ## Basic Python-style list helpers -/

/-- Python slice `l[i:j]` (out-of-range indices are clamped, `j < i` gives `[]`). -/
def pySlice {α : Type} (l : List α) (i j : Nat) : List α :=
  (l.drop i).take (j - i)

/-- Python `str.strip()`: remove leading and trailing whitespace. -/
def pyStrip (s : List Char) : List Char :=
  ((s.dropWhile Char.isWhitespace).reverse.dropWhile Char.isWhitespace).reverse

/-- Element lookup with a default, for positions the source guarantees in range. -/
def charAt (l : List Char) (i : Nat) : Char :=
  l.getD i ' '

theorem drop_append_ge {α : Type} (l1 l2 : List α) (n : Nat) (h : l1.length ≤ n) :
    (l1 ++ l2).drop n = l2.drop (n - l1.length) := by
  induction l1 generalizing n with
  | nil => simp
  | cons a t ih =>
    cases n with
    | zero => simp at h
    | succ m =>
      simp only [List.cons_append, List.drop_succ_cons, List.length_cons]
      have := ih m (by simpa using h)
      simpa [Nat.succ_sub_succ] using this

/-! ## Unicode helpers (`to_qt_pos`, `to_py_pos`, source lines 123-135)

Python string indices count Unicode scalar values; Qt cursor positions
count UTF-16 code units.  `to_qt_pos` measures the UTF-16-LE byte length
of the prefix and halves it; `to_py_pos` walks the string accumulating
per-character UTF-16 widths. -/

/-- Number of bytes of one character in UTF-16-LE (`len(c.encode('utf-16-le'))`). -/
def utf16ByteLen (c : Char) : Nat :=
  if 0xFFFF < c.toNat then 4 else 2

/-- UTF-16 code-unit width of one character (`2 if ord(c) > 0xFFFF else 1`). -/
def charWidth (c : Char) : Nat :=
  if 0xFFFF < c.toNat then 2 else 1

/-- UTF-16 code-unit length of a string. -/
def utf16Len (s : List Char) : Nat :=
  (s.map charWidth).sum

/-- `to_qt_pos(full_text, py_pos)`: UTF-16-LE byte length of `full_text[:py_pos]`,
divided by two. -/
def to_qt_pos (full_text : List Char) (py_pos : Nat) : Nat :=
  ((full_text.take py_pos).map utf16ByteLen).sum / 2

/-- Loop body of `to_py_pos`: `i` counts consumed characters, `curr` the
accumulated UTF-16 width; on exhausting the text return the count so far
(which is then `len(full_text)`). -/
def to_py_pos_go (qt_pos : Nat) : List Char → Nat → Nat → Nat
  | [], i, _ => i
  | c :: rest, i, curr =>
    if qt_pos ≤ curr then i else to_py_pos_go qt_pos rest (i + 1) (curr + charWidth c)

/-- `to_py_pos(full_text, qt_pos)` (source lines 128-135). -/
def to_py_pos (full_text : List Char) (qt_pos : Nat) : Nat :=
  to_py_pos_go qt_pos full_text 0 0

theorem utf16ByteLen_eq (s : List Char) :
    (s.map utf16ByteLen).sum = 2 * utf16Len s := by
  induction s with
  | nil => simp [utf16Len]
  | cons c t ih =>
    simp only [List.map_cons, List.sum_cons, utf16Len] at *
    rw [ih]
    simp only [utf16ByteLen, charWidth]
    by_cases h : 0xFFFF < c.toNat <;> simp [h] <;> ring

theorem to_qt_pos_eq (s : List Char) (p : Nat) :
    to_qt_pos s p = utf16Len (s.take p) := by
  unfold to_qt_pos
  rw [utf16ByteLen_eq]
  omega

theorem charWidth_pos (c : Char) : 1 ≤ charWidth c := by
  unfold charWidth
  split <;> omega

theorem to_py_pos_go_exact (s : List Char) :
    ∀ (p : Nat), p ≤ s.length → ∀ (i curr : Nat),
      to_py_pos_go (curr + utf16Len (s.take p)) s i curr = i + p := by
  induction s with
  | nil =>
    intro p hp i curr
    have : p = 0 := by simpa using hp
    subst this
    simp [to_py_pos_go]
  | cons c t ih =>
    intro p hp i curr
    cases p with
    | zero => simp [to_py_pos_go, utf16Len]
    | succ q =>
      have hq : q ≤ t.length := by simpa using hp
      have hw := charWidth_pos c
      have hcond : ¬ (curr + utf16Len ((c :: t).take (q + 1)) ≤ curr) := by
        simp only [List.take_succ_cons, utf16Len, List.map_cons, List.sum_cons]
        omega
      simp only [to_py_pos_go, if_neg hcond]
      have : curr + utf16Len ((c :: t).take (q + 1)) =
          (curr + charWidth c) + utf16Len (t.take q) := by
        simp only [List.take_succ_cons, utf16Len, List.map_cons, List.sum_cons]
        omega
      rw [this, ih q hq (i + 1) (curr + charWidth c)]
      omega

/-- C5: round trip of the two cursor-position conversions.  For every text and
every codepoint offset `p` with `0 ≤ p ≤ len(text)`, converting `p` to a UTF-16
cursor position with `to_qt_pos` and back with `to_py_pos` returns exactly `p`. -/
theorem to_py_pos_to_qt_pos_roundtrip (full_text : List Char) (p : Nat)
    (hp : p ≤ full_text.length) :
    to_py_pos full_text (to_qt_pos full_text p) = p := by
  rw [to_qt_pos_eq]
  have := to_py_pos_go_exact full_text p hp 0 0
  simpa [to_py_pos] using this

/-- C5 witness: the round trip evaluated on a concrete string containing a
supplementary-plane character (U+1D11E, UTF-16 width 2). -/
theorem to_py_pos_to_qt_pos_roundtrip_witness :
    2 ≤ (['a', Char.ofNat 119070, 'b'].length) ∧
      to_py_pos ['a', Char.ofNat 119070, 'b']
        (to_qt_pos ['a', Char.ofNat 119070, 'b'] 2) = 2 :=
  ⟨by decide, to_py_pos_to_qt_pos_roundtrip ['a', Char.ofNat 119070, 'b'] 2 (by decide)⟩

theorem to_py_pos_go_le (qt_pos : Nat) (s : List Char) :
    ∀ (i curr : Nat), to_py_pos_go qt_pos s i curr ≤ i + s.length := by
  induction s with
  | nil => intro i curr; simp [to_py_pos_go]
  | cons c t ih =>
    intro i curr
    simp only [to_py_pos_go]
    split
    · simp
    · have := ih (i + 1) (curr + charWidth c)
      simp only [List.length_cons]
      omega

theorem to_py_pos_go_full (qt_pos : Nat) (s : List Char) :
    ∀ (i curr : Nat), curr + utf16Len s ≤ qt_pos →
      to_py_pos_go qt_pos s i curr = i + s.length := by
  induction s with
  | nil => intro i curr _; simp [to_py_pos_go]
  | cons c t ih =>
    intro i curr h
    have hw := charWidth_pos c
    have hlen : utf16Len (c :: t) = charWidth c + utf16Len t := by
      simp [utf16Len]
    have hcond : ¬ (qt_pos ≤ curr) := by omega
    simp only [to_py_pos_go, if_neg hcond]
    rw [ih (i + 1) (curr + charWidth c) (by omega)]
    simp only [List.length_cons]
    omega

/-- C10: `to_py_pos` is total and always returns an in-range index: for every
text and every cursor position `qt_pos` (a natural number), the result `i`
satisfies `0 ≤ i ≤ len(text)`; and whenever `qt_pos` is at least the total
UTF-16 length of the text, the result is exactly `len(text)` (clamping to the
end of the buffer rather than failing). -/
theorem to_py_pos_total_in_range (full_text : List Char) (qt_pos : Nat) :
    to_py_pos full_text qt_pos ≤ full_text.length ∧
      (utf16Len full_text ≤ qt_pos → to_py_pos full_text qt_pos = full_text.length) := by
  constructor
  · have := to_py_pos_go_le qt_pos full_text 0 0
    simpa [to_py_pos] using this
  · intro h
    have := to_py_pos_go_full qt_pos full_text 0 0 (by omega)
    simpa [to_py_pos] using this

/-- C10 witness: the clamping branch evaluated concretely on a two-character
string with an oversized cursor position. -/
theorem to_py_pos_total_in_range_witness :
    to_py_pos ['a', 'b'] 99 = 2 :=
  (to_py_pos_total_in_range ['a', 'b'] 99).2 (by decide)

/-! ## Edit scripts: embedding of `difflib.SequenceMatcher`
(`autojunk=False`, `isjunk=None`), the library the source uses for all
diffing.  Translated from the reference algorithm of CPython's `difflib`:
`find_longest_match` (dynamic-programming pass plus the two non-junk
extension loops; the junk-driven loops are vacuous here), the stack-driven
`get_matching_blocks` with its sort / adjacent-merge / sentinel steps, and
`get_opcodes`. -/

/-- Opcode tag, `tag ∈ {'equal','delete','insert','replace'}`. -/
inductive Tag where
  | equal
  | delete
  | insert
  | replace
deriving DecidableEq

/-- One opcode `(tag, i1, i2, j1, j2)`. -/
abbrev Opcode := Tag × Nat × Nat × Nat × Nat

/-- `b2j[c]`: ascending list of the positions of `c` in `b` (no junk, no
popular-element elimination since `autojunk=False`). -/
def b2j (b : List Char) (c : Char) : List Nat :=
  (List.range b.length).filter (fun j => b.getD j ' ' == c)

/-- Association-list lookup with default 0 (`j2len.get(j-1, 0)`). -/
def j2lenGet (m : List (Nat × Nat)) (j : Nat) : Nat :=
  match m.find? (fun p => p.1 == j) with
  | some p => p.2
  | none => 0

/-- Inner loop of `find_longest_match` over the candidate positions `js` of
`a[i]` in `b` (ascending): `continue` below `blo`, `break` at `bhi`, extend
the run length from `j2len[j-1]`, track the best `(besti, bestj, bestsize)`. -/
def flmInner (blo bhi : Nat) (j2len : List (Nat × Nat)) (i : Nat) :
    List Nat → List (Nat × Nat) → Nat × Nat × Nat → List (Nat × Nat) × (Nat × Nat × Nat)
  | [], newj2len, best => (newj2len, best)
  | j :: js, newj2len, best =>
    if j < blo then flmInner blo bhi j2len i js newj2len best
    else if bhi ≤ j then (newj2len, best)
    else
      let k := (if j = 0 then 0 else j2lenGet j2len (j - 1)) + 1
      let newbest := if best.2.2 < k then (i + 1 - k, j + 1 - k, k) else best
      flmInner blo bhi j2len i js ((j, k) :: newj2len) newbest

/-- Outer loop of `find_longest_match` over `i ∈ [alo, ahi)`; `cnt` is the
number of remaining iterations (`ahi - alo` at the initial call). -/
def flmOuter (a b : List Char) (blo bhi : Nat) :
    Nat → Nat → List (Nat × Nat) → Nat × Nat × Nat → Nat × Nat × Nat
  | 0, _, _, best => best
  | cnt + 1, i, j2len, best =>
    let st := flmInner blo bhi j2len i (b2j b (charAt a i)) [] best
    flmOuter a b blo bhi cnt (i + 1) st.1 st.2

/-- First non-junk extension loop: widen the best match to the left while the
adjacent characters agree.  `fuel` bounds the iterations (`besti` suffices). -/
def flmExtendFront (a b : List Char) (alo blo : Nat) :
    Nat → Nat × Nat × Nat → Nat × Nat × Nat
  | 0, best => best
  | fuel + 1, (besti, bestj, bestsize) =>
    if alo < besti ∧ blo < bestj ∧ charAt a (besti - 1) = charAt b (bestj - 1) then
      flmExtendFront a b alo blo fuel (besti - 1, bestj - 1, bestsize + 1)
    else (besti, bestj, bestsize)

/-- Second non-junk extension loop: widen the best match to the right. -/
def flmExtendBack (a b : List Char) (ahi bhi : Nat) :
    Nat → Nat × Nat × Nat → Nat × Nat × Nat
  | 0, best => best
  | fuel + 1, (besti, bestj, bestsize) =>
    if besti + bestsize < ahi ∧ bestj + bestsize < bhi ∧
        charAt a (besti + bestsize) = charAt b (bestj + bestsize) then
      flmExtendBack a b ahi bhi fuel (besti, bestj, bestsize + 1)
    else (besti, bestj, bestsize)

/-- `SequenceMatcher.find_longest_match(alo, ahi, blo, bhi)`.  The junk-driven
extension loops of the original are vacuous with `isjunk=None` and are omitted. -/
def find_longest_match (a b : List Char) (alo ahi blo bhi : Nat) : Nat × Nat × Nat :=
  let best1 := flmOuter a b blo bhi (ahi - alo) alo [] (alo, blo, 0)
  let best2 := flmExtendFront a b alo blo best1.1 best1
  flmExtendBack a b ahi bhi (ahi + bhi) best2

/-- Lexicographic order on matching-block triples, as Python's tuple sort. -/
def tripleLe (x y : Nat × Nat × Nat) : Prop :=
  x.1 < y.1 ∨ (x.1 = y.1 ∧ (x.2.1 < y.2.1 ∨ (x.2.1 = y.2.1 ∧ x.2.2 ≤ y.2.2)))

instance : DecidableRel tripleLe := by
  intro x y
  unfold tripleLe
  infer_instance

/-- Stack loop of `get_matching_blocks`: pop an interval, find its longest
match, record it, push the two flanking sub-intervals.  `fuel` bounds the
number of pops and is called with more than the total number of pops that
can ever occur. -/
def gmbLoop (a b : List Char) :
    Nat → List (Nat × Nat × Nat × Nat) → List (Nat × Nat × Nat) → List (Nat × Nat × Nat)
  | 0, _, acc => acc
  | _ + 1, [], acc => acc
  | fuel + 1, (alo, ahi, blo, bhi) :: queue, acc =>
    let m := find_longest_match a b alo ahi blo bhi
    let i := m.1
    let j := m.2.1
    let k := m.2.2
    if k ≠ 0 then
      let pushHigh : List (Nat × Nat × Nat × Nat) :=
        if i + k < ahi ∧ j + k < bhi then [(i + k, ahi, j + k, bhi)] else []
      let pushLow : List (Nat × Nat × Nat × Nat) :=
        if alo < i ∧ blo < j then [(alo, i, blo, j)] else []
      gmbLoop a b fuel (pushHigh ++ pushLow ++ queue) ((i, j, k) :: acc)
    else gmbLoop a b fuel queue acc

/-- Adjacent-merge pass of `get_matching_blocks` (collapse abutting matches,
drop the zero-length carrier). -/
def gmbAdjacent : Nat × Nat × Nat → List (Nat × Nat × Nat) → List (Nat × Nat × Nat)
  | (i1, j1, k1), [] => if k1 ≠ 0 then [(i1, j1, k1)] else []
  | (i1, j1, k1), (i2, j2, k2) :: rest =>
    if i1 + k1 = i2 ∧ j1 + k1 = j2 then gmbAdjacent (i1, j1, k1 + k2) rest
    else (if k1 ≠ 0 then [(i1, j1, k1)] else []) ++ gmbAdjacent (i2, j2, k2) rest

/-- `SequenceMatcher(None, a, b, autojunk=False).get_matching_blocks()`:
the recorded matches, sorted, adjacent-merged, with the `(la, lb, 0)` sentinel. -/
def get_matching_blocks (a b : List Char) : List (Nat × Nat × Nat) :=
  let la := a.length
  let lb := b.length
  let blocks := gmbLoop a b ((la + 1) * (lb + 1) + 1) [(0, la, 0, lb)] []
  gmbAdjacent (0, 0, 0) (blocks.insertionSort tripleLe) ++ [(la, lb, 0)]

/-- Opcode-emission loop of `get_opcodes`. -/
def opcodesLoop : Nat → Nat → List (Nat × Nat × Nat) → List Opcode
  | _, _, [] => []
  | i, j, (ai, bj, size) :: rest =>
    (if i < ai ∧ j < bj then [(Tag.replace, i, ai, j, bj)]
     else if i < ai then [(Tag.delete, i, ai, j, bj)]
     else if j < bj then [(Tag.insert, i, ai, j, bj)]
     else []) ++
    (if size ≠ 0 then [(Tag.equal, ai, ai + size, bj, bj + size)] else []) ++
    opcodesLoop (ai + size) (bj + size) rest

/-- `SequenceMatcher(None, a, b, autojunk=False).get_opcodes()`. -/
def get_opcodes (a b : List Char) : List Opcode :=
  opcodesLoop 0 0 (get_matching_blocks a b)

/-! ## MergeReconciler buffer construction
(`generate_merge_data`, source lines 4588-4626). -/

/-- Kind of a pending merge span (the `'insert'` / `'delete'` format type). -/
inductive Kind where
  | insert
  | delete
deriving DecidableEq

/-- One entry of the `formats` list: `(start, length, kind)`. -/
abbrev Fmt := Nat × Nat × Kind

/-- Loop body of `generate_merge_data`: walk the opcodes, appending segments to
the unified buffer and recording tagged spans at the running length `curr_len`. -/
def gmdGo (text_a text_b : List Char) : List Opcode → Nat → List Char × List Fmt
  | [], _ => ([], [])
  | (tag, i1, i2, j1, j2) :: rest, curr_len =>
    match tag with
    | Tag.equal =>
      let segment := pySlice text_a i1 i2
      let st := gmdGo text_a text_b rest (curr_len + segment.length)
      (segment ++ st.1, st.2)
    | Tag.delete =>
      let segment := pySlice text_a i1 i2
      let st := gmdGo text_a text_b rest (curr_len + segment.length)
      (segment ++ st.1, (curr_len, segment.length, Kind.delete) :: st.2)
    | Tag.insert =>
      let segment := pySlice text_b j1 j2
      let st := gmdGo text_a text_b rest (curr_len + segment.length)
      (segment ++ st.1, (curr_len, segment.length, Kind.insert) :: st.2)
    | Tag.replace =>
      let seg_ins := pySlice text_b j1 j2
      let seg_del := pySlice text_a i1 i2
      let st := gmdGo text_a text_b rest (curr_len + seg_ins.length + seg_del.length)
      (seg_ins ++ seg_del ++ st.1,
        (curr_len, seg_ins.length, Kind.insert) ::
          (curr_len + seg_ins.length, seg_del.length, Kind.delete) :: st.2)

/-- `generate_merge_data(text_a, text_b, opcodes)`: the unified merge buffer
and its ordered format list. -/
def generate_merge_data (text_a text_b : List Char) (opcodes : List Opcode) :
    List Char × List Fmt :=
  gmdGo text_a text_b opcodes 0

/-- The span sequence described by the claim, one entry per emitted segment:
an Equal span's text copied once and untagged; a Delete span copying `a`'s
slice, tagged Delete; an Insert span copying `b`'s slice, tagged Insert; a
Replace span expanding into an Insert span holding `b`'s slice immediately
followed by a Delete span holding `a`'s slice. -/
def claimSpans (a b : List Char) : List Opcode → List (List Char × Option Kind)
  | [] => []
  | (tag, i1, i2, j1, j2) :: rest =>
    match tag with
    | Tag.equal => (pySlice a i1 i2, none) :: claimSpans a b rest
    | Tag.delete => (pySlice a i1 i2, some Kind.delete) :: claimSpans a b rest
    | Tag.insert => (pySlice b j1 j2, some Kind.insert) :: claimSpans a b rest
    | Tag.replace =>
      (pySlice b j1 j2, some Kind.insert) ::
        (pySlice a i1 i2, some Kind.delete) :: claimSpans a b rest

/-- Concatenated buffer of a span sequence. -/
def spansText (spans : List (List Char × Option Kind)) : List Char :=
  (spans.map Prod.fst).flatten

/-- Positions of the tagged spans inside the concatenated buffer, carrying the
span's segment: `(start, segment, kind)` with `start` the total length of all
segments emitted before it. -/
def spansFmtsSeg : List (List Char × Option Kind) → Nat → List (Nat × List Char × Kind)
  | [], _ => []
  | (seg, none) :: rest, c => spansFmtsSeg rest (c + seg.length)
  | (seg, some k) :: rest, c => (c, seg, k) :: spansFmtsSeg rest (c + seg.length)

theorem gmdGo_eq_claimSpans (a b : List Char) (ops : List Opcode) :
    ∀ (c : Nat),
      gmdGo a b ops c =
        (spansText (claimSpans a b ops),
          (spansFmtsSeg (claimSpans a b ops) c).map (fun t => (t.1, t.2.1.length, t.2.2))) := by
  induction ops with
  | nil => intro c; simp [gmdGo, claimSpans, spansText, spansFmtsSeg]
  | cons op rest ih =>
    intro c
    obtain ⟨tag, i1, i2, j1, j2⟩ := op
    cases tag <;>
      simp only [gmdGo, claimSpans, spansText, spansFmtsSeg, List.map_cons, List.flatten,
        ih, List.append_assoc]

theorem spansFmtsSeg_slice (spans : List (List Char × Option Kind)) :
    ∀ (c : Nat) (t : Nat × List Char × Kind), t ∈ spansFmtsSeg spans c →
      c ≤ t.1 ∧ ((spansText spans).drop (t.1 - c)).take t.2.1.length = t.2.1 := by
  induction spans with
  | nil => intro c t ht; simp [spansFmtsSeg] at ht
  | cons sp rest ih =>
    intro c t ht
    obtain ⟨seg, k⟩ := sp
    cases k with
    | none =>
      simp only [spansFmtsSeg] at ht
      obtain ⟨hc, hsl⟩ := ih (c + seg.length) t ht
      refine ⟨by omega, ?_⟩
      have hdrop : (spansText ((seg, none) :: rest)).drop (t.1 - c) =
          (spansText rest).drop (t.1 - c - seg.length) := by
        simp only [spansText, List.map_cons, List.flatten]
        exact drop_append_ge seg _ _ (by omega)
      rw [hdrop]
      have : t.1 - c - seg.length = t.1 - (c + seg.length) := by omega
      rw [this]
      exact hsl
    | some k0 =>
      simp only [spansFmtsSeg, List.mem_cons] at ht
      rcases ht with ht | ht
      · subst ht
        simp only [Nat.sub_self, Nat.le_refl, true_and, List.drop_zero]
        simp only [spansText, List.map_cons, List.flatten]
        exact List.take_left seg _
      · obtain ⟨hc, hsl⟩ := ih (c + seg.length) t ht
        refine ⟨by omega, ?_⟩
        have hdrop : (spansText ((seg, some k0) :: rest)).drop (t.1 - c) =
            (spansText rest).drop (t.1 - c - seg.length) := by
          simp only [spansText, List.map_cons, List.flatten]
          exact drop_append_ge seg _ _ (by omega)
        rw [hdrop]
        have : t.1 - c - seg.length = t.1 - (c + seg.length) := by omega
        rw [this]
        exact hsl

/-- C2: for every pair of texts and every edit script, the unified merge buffer
is built by walking the opcodes in order exactly as the claim's span sequence
describes it (Equal copied once; Delete from `a` tagged Delete; Insert from `b`
tagged Insert; Replace expanding into an Insert span from `b` immediately
followed by a Delete span from `a`, never an atomic substitution), and each
recorded `(start, length)` is the exact position of its segment in the
concatenated buffer. -/
theorem generate_merge_data_spec (text_a text_b : List Char) (opcodes : List Opcode) :
    generate_merge_data text_a text_b opcodes =
      (spansText (claimSpans text_a text_b opcodes),
        (spansFmtsSeg (claimSpans text_a text_b opcodes) 0).map
          (fun t => (t.1, t.2.1.length, t.2.2))) ∧
    ∀ t ∈ spansFmtsSeg (claimSpans text_a text_b opcodes) 0,
      ((generate_merge_data text_a text_b opcodes).1.drop t.1).take t.2.1.length = t.2.1 := by
  have hg : generate_merge_data text_a text_b opcodes =
      (spansText (claimSpans text_a text_b opcodes),
        (spansFmtsSeg (claimSpans text_a text_b opcodes) 0).map
          (fun t => (t.1, t.2.1.length, t.2.2))) :=
    gmdGo_eq_claimSpans text_a text_b opcodes 0
  refine ⟨hg, ?_⟩
  intro t ht
  have h := (spansFmtsSeg_slice (claimSpans text_a text_b opcodes) 0 t ht).2
  rw [hg]
  simpa using h

/-- C2 witness: the construction evaluated on a concrete replace-only script;
both the buffer and the tagged-span slice property are checked at that input. -/
theorem generate_merge_data_spec_witness :
    generate_merge_data ['a'] ['b'] [(Tag.replace, 0, 1, 0, 1)] =
      (['b', 'a'], [(0, 1, Kind.insert), (1, 1, Kind.delete)]) := by
  have h := (generate_merge_data_spec ['a'] ['b'] [(Tag.replace, 0, 1, 0, 1)]).1
  rw [h]
  decide

/-! ## DiffTextEdit merge-mode state machine
(`enter_merge_mode` 764-808, `exit_merge_mode` 810-856, `handle_merge_click`
858-900, `apply_sync_merge_action` 902-913, `execute_merge_action` 915-957).

A Qt text cursor with a selection is modeled as a pair of positions;
when a range of text is removed, every cursor in the editor shifts the
way Qt shifts persistent cursors (positions after the removed range move
left by its length, positions inside it collapse to its start).  Python's
object identity for the cursor dictionaries is modeled by a stable id
assigned at `enter_merge_mode`. -/

/-- Resolution action: `'apply'` (Accept) or `'reject'`. -/
inductive MAction where
  | apply
  | reject
deriving DecidableEq

/-- One entry of `self.merge_cursors`: the span's kind and its persistent
cursor `[selStart, selEnd)`, plus the stable identity `cid`. -/
structure MCursor where
  cid : Nat
  ctype : Kind
  selStart : Nat
  selEnd : Nat
deriving DecidableEq

/-- The merge-mode-relevant state of one `DiffTextEdit`. -/
structure EditorState where
  text : List Char
  original_text_backup : Option (List Char)
  is_merge_mode : Bool
  merge_cursors : List MCursor
deriving DecidableEq

/-- Delete the character range `[s, e)` from a buffer. -/
def removeRange (t : List Char) (s e : Nat) : List Char :=
  t.take s ++ t.drop e

/-- How a persistent cursor position reacts to deletion of `[s, e)`. -/
def adjustPos (s e p : Nat) : Nat :=
  if p ≤ s then p else if e ≤ p then p - (e - s) else s

/-- Shift one cursor after deletion of `[s, e)`. -/
def adjustCursor (s e : Nat) (c : MCursor) : MCursor :=
  { c with selStart := adjustPos s e c.selStart, selEnd := adjustPos s e c.selEnd }

/-- `enter_merge_mode(merged_text, formats)`: back up the current text, load
the unified buffer, become read-only/merge-mode, and create one persistent
cursor per format chunk (ids in construction order). -/
def enter_merge_mode (st : EditorState) (merged_text : List Char) (formats : List Fmt) :
    EditorState :=
  { text := merged_text
  , original_text_backup := some st.text
  , is_merge_mode := true
  , merge_cursors := formats.enum.map
      (fun p => ⟨p.1, p.2.2.2, p.2.1, p.2.1 + p.2.2.1⟩) }

/-- Process one item of `execute_merge_action`'s loop, located by identity:
Accept on an insert / Reject on a delete keeps the text (only the char format
is cleared); Accept on a delete / Reject on an insert removes the selected
text, shifting every other cursor; the item is then removed from the list. -/
def execOnId (action : MAction) (st : EditorState) (cid : Nat) : EditorState :=
  match st.merge_cursors.find? (fun c => c.cid == cid) with
  | none => st
  | some c =>
    let keepText : Bool :=
      match action, c.ctype with
      | MAction.apply, Kind.insert => true
      | MAction.apply, Kind.delete => false
      | MAction.reject, Kind.insert => false
      | MAction.reject, Kind.delete => true
    let st1 :=
      if keepText then st
      else { st with
              text := removeRange st.text c.selStart c.selEnd
            , merge_cursors := st.merge_cursors.map (adjustCursor c.selStart c.selEnd) }
    { st1 with merge_cursors := st1.merge_cursors.filter (fun c' => c'.cid ≠ cid) }

/-- `execute_merge_action(indices, action)`: validate the indices against the
current list, snapshot the addressed items, process each in order. -/
def execute_merge_action (st : EditorState) (indices : List Nat) (action : MAction) :
    EditorState :=
  let valid := indices.filter (fun i => i < st.merge_cursors.length)
  if valid = [] then st
  else
    let ids := valid.filterMap (fun i => (st.merge_cursors.get? i).map MCursor.cid)
    ids.foldl (execOnId action) st

/-- The action inversion of `apply_sync_merge_action`:
`'reject' if action == 'apply' else 'apply'`. -/
def invertAction : MAction → MAction
  | MAction.apply => MAction.reject
  | MAction.reject => MAction.apply

/-- `apply_sync_merge_action(indices, action)`: slot receiving the sync signal
from the opposite editor; no-op unless in merge mode, otherwise executes the
same indices with the inverted action. -/
def apply_sync_merge_action (st : EditorState) (indices : List Nat) (action : MAction) :
    EditorState :=
  if st.is_merge_mode then execute_merge_action st indices (invertAction action)
  else st

/-- Descending-by-`selectionStart` comparison used to sort the pending insert
cursors before removal (`sort(key=..., reverse=True)`). -/
def startGe (c c' : MCursor) : Prop := c'.selStart ≤ c.selStart

instance : DecidableRel startGe := by
  intro c c'
  unfold startGe
  infer_instance

/-- Loop of `removeCursorsText`; the fuel argument is the length of the cursor
list at the initial call, never reached because each step consumes one cursor. -/
def removeCursorsTextGo : Nat → List Char → List MCursor → List Char
  | 0, t, _ => t
  | _ + 1, t, [] => t
  | fuel + 1, t, c :: rest =>
    removeCursorsTextGo fuel (removeRange t c.selStart c.selEnd)
      (rest.map (adjustCursor c.selStart c.selEnd))

/-- Remove the selections of a list of cursors from the buffer in list order,
shifting the later cursors after each removal exactly as Qt does. -/
def removeCursorsText (t : List Char) (cs : List MCursor) : List Char :=
  removeCursorsTextGo cs.length t cs

/-- `exit_merge_mode(commit)`: with `commit=False`, restore the backup and
report no change; with `commit=True`, remove every still-pending insert span
(highest start first), compare the final text with the backup, and report
whether they differ.  Either way the episode ends: backup cleared, cursor list
cleared, merge mode off. -/
def exit_merge_mode (st : EditorState) (commit : Bool) : EditorState × Bool :=
  if commit then
    let pending :=
      (st.merge_cursors.filter (fun c => c.ctype == Kind.insert)).insertionSort startGe
    let newText := removeCursorsText st.text pending
    let changed : Bool :=
      match st.original_text_backup with
      | some b => decide (¬ newText = b)
      | none => true
    (⟨newText, none, false, []⟩, changed)
  else
    let newText :=
      match st.original_text_backup with
      | some b => b
      | none => st.text
    (⟨newText, none, false, []⟩, false)

/-- Group-finding part of `handle_merge_click`: the chunk containing the click
position, grouped with an immediately adjacent chunk of the opposite kind (the
Insert+Delete pair of a Replace), sorted descending; `none` when no chunk was
hit. -/
def clickGroup (st : EditorState) (pos : Nat) : Option (List Nat) :=
  match st.merge_cursors.enum.find?
      (fun p => p.2.selStart ≤ pos ∧ pos ≤ p.2.selEnd) with
  | none => none
  | some (i, target) =>
    let groupNext : List Nat :=
      match st.merge_cursors.get? (i + 1) with
      | some nex =>
        if target.selEnd = nex.selStart ∧ target.ctype ≠ nex.ctype then [i, i + 1] else [i]
      | none => [i]
    let group0 : List Nat :=
      if groupNext.length = 1 ∧ 1 ≤ i then
        match st.merge_cursors.get? (i - 1) with
        | some prev =>
          if prev.selEnd = target.selStart ∧ target.ctype ≠ prev.ctype then [i, i - 1]
          else groupNext
        | none => groupNext
      else groupNext
    some (group0.insertionSort (fun x y => y ≤ x))

/-- `handle_merge_click(click_cursor, action)`: locate the clicked group,
execute the action locally, and emit the group and action on
`merge_action_signal` (returned as the second component). -/
def handle_merge_click (st : EditorState) (pos : Nat) (action : MAction) :
    EditorState × Option (List Nat × MAction) :=
  match clickGroup st pos with
  | none => (st, none)
  | some group => (execute_merge_action st group action, some (group, action))

/-- The cross-wiring of the two editors (source lines 4162-4163):
`edit_left.merge_action_signal → edit_right.apply_sync_merge_action` and
symmetrically, so a click handled on the source side is followed by the
mirror side receiving the same group and action. -/
def sync_click_step (stSrc stDst : EditorState) (pos : Nat) (action : MAction) :
    EditorState × EditorState :=
  match handle_merge_click stSrc pos action with
  | (stSrc1, none) => (stSrc1, stDst)
  | (stSrc1, some payload) => (stSrc1, apply_sync_merge_action stDst payload.1 payload.2)

/-- C4: whenever a click on one side resolves a group of spans with some
action while both sides are in merge mode, the emitted payload carries that
same group and action, and the opposite side's reconciler resolves exactly the
same group indices with the inverted action: Accept (`apply`) on one side
becomes `reject` on the mirror and vice versa. -/
theorem sync_click_inverts (stSrc stDst : EditorState) (pos : Nat) (action : MAction)
    (g : List Nat) (a : MAction)
    (hDst : stDst.is_merge_mode = true)
    (hemit : (handle_merge_click stSrc pos action).2 = some (g, a)) :
    a = action ∧
    (sync_click_step stSrc stDst pos action).2 = execute_merge_action stDst g (invertAction action) ∧
    invertAction MAction.apply = MAction.reject ∧
    invertAction MAction.reject = MAction.apply := by
  cases hcg : clickGroup stSrc pos with
  | none =>
    rw [handle_merge_click, hcg] at hemit
    simp at hemit
  | some group =>
    rw [handle_merge_click, hcg] at hemit
    simp only [Option.some.injEq, Prod.mk.injEq] at hemit
    obtain ⟨hg, ha⟩ := hemit
    subst ha
    subst hg
    refine ⟨rfl, ?_, rfl, rfl⟩
    simp [sync_click_step, handle_merge_click, hcg, apply_sync_merge_action, hDst]

/-- C4 witness: a concrete click on a one-span editor while the mirror editor
is in merge mode; the mirror resolves the same group `[0]` with the inverted
action. -/
theorem sync_click_inverts_witness :
    (sync_click_step ⟨['A', 'X', 'B'], none, true, [⟨0, Kind.insert, 1, 2⟩]⟩
        ⟨['A', 'B', 'X'], none, true, [⟨0, Kind.delete, 1, 2⟩]⟩ 1 MAction.apply).2 =
      execute_merge_action ⟨['A', 'B', 'X'], none, true, [⟨0, Kind.delete, 1, 2⟩]⟩ [0]
        (invertAction MAction.apply) :=
  (sync_click_inverts ⟨['A', 'X', 'B'], none, true, [⟨0, Kind.insert, 1, 2⟩]⟩
    ⟨['A', 'B', 'X'], none, true, [⟨0, Kind.delete, 1, 2⟩]⟩ 1 MAction.apply
    [0] MAction.apply (by decide) (by decide)).2.1

/-- C1: the scenario `a="AB"`, `b="AXB"` run through the actual pipeline
(`SequenceMatcher` opcodes, `generate_merge_data`, `enter_merge_mode`):
the unified buffer is `"AXB"` with exactly one pending span
`{start:1, length:1, kind:Insert}`; resolving that span with Reject and
exiting with `commit=True` yields `"AB"` with `changed=False` relative to the
original `a`, while resolving it with Accept and exiting with `commit=True`
yields `"AXB"` with `changed=True`. -/
theorem merge_scenario_AB_AXB :
    generate_merge_data ['A', 'B'] ['A', 'X', 'B']
        (get_opcodes ['A', 'B'] ['A', 'X', 'B']) =
      (['A', 'X', 'B'], [(1, 1, Kind.insert)]) ∧
    (enter_merge_mode ⟨['A', 'B'], none, false, []⟩ ['A', 'X', 'B']
        [(1, 1, Kind.insert)]).merge_cursors = [⟨0, Kind.insert, 1, 2⟩] ∧
    exit_merge_mode
        (execute_merge_action
          (enter_merge_mode ⟨['A', 'B'], none, false, []⟩ ['A', 'X', 'B']
            [(1, 1, Kind.insert)]) [0] MAction.reject) true =
      (⟨['A', 'B'], none, false, []⟩, false) ∧
    exit_merge_mode
        (execute_merge_action
          (enter_merge_mode ⟨['A', 'B'], none, false, []⟩ ['A', 'X', 'B']
            [(1, 1, Kind.insert)]) [0] MAction.apply) true =
      (⟨['A', 'X', 'B'], none, false, []⟩, true) := by
  decide

/-- C9 counterexample: `enter_merge_mode` performs no implicit
`exit(commit=False)`.  Concretely: start from text `"AB"`, enter an episode
with unified buffer `"AXB"`, then call enter again; the new backup is the
previous episode's unified buffer `"AXB"`, not the restored pre-episode
text `"AB"` that an implicit `exit(commit=False)` would have produced. -/
theorem enter_merge_mode_no_implicit_exit :
    (enter_merge_mode
        (enter_merge_mode ⟨['A', 'B'], none, false, []⟩ ['A', 'X', 'B']
          [(1, 1, Kind.insert)]) ['Q', 'Q'] []).original_text_backup =
      some ['A', 'X', 'B'] ∧
    (enter_merge_mode
        ((exit_merge_mode
          (enter_merge_mode ⟨['A', 'B'], none, false, []⟩ ['A', 'X', 'B']
            [(1, 1, Kind.insert)]) false).1) ['Q', 'Q'] []).original_text_backup =
      some ['A', 'B'] ∧
    some (['A', 'X', 'B'] : List Char) ≠ some ['A', 'B'] := by
  decide

/-- C9 amended: `enter_merge_mode` unconditionally backs up whatever text the
editor currently shows and starts the new episode from it — it never first
exits an already-Active episode, so re-entering while Active records the
previous episode's unified buffer as the backup and the pre-episode original
is lost. -/
theorem enter_merge_mode_backup (st : EditorState) (merged_text : List Char)
    (formats : List Fmt) :
    (enter_merge_mode st merged_text formats).original_text_backup = some st.text ∧
    (enter_merge_mode st merged_text formats).is_merge_mode = true ∧
    (enter_merge_mode st merged_text formats).text = merged_text := by
  exact ⟨rfl, rfl, rfl⟩

/-! ## Position mapping across the diff (`get_mapped_index`, source lines
4768-4797).  The UTF-16 conversions at either end are the `to_qt_pos` /
`to_py_pos` functions above; the core scan over the opcode list is embedded
here.  `is_left_source` selects which half of each opcode is the source range
(`i`-range for the left editor, `j`-range for the right). -/

/-- Source-range start of an opcode as seen from one side. -/
def srcStart (is_left_source : Bool) (op : Opcode) : Nat :=
  if is_left_source then op.2.1 else op.2.2.2.1

/-- Source-range end of an opcode as seen from one side. -/
def srcEnd (is_left_source : Bool) (op : Opcode) : Nat :=
  if is_left_source then op.2.2.1 else op.2.2.2.2

/-- Destination-range start of an opcode as seen from one side. -/
def dstStart (is_left_source : Bool) (op : Opcode) : Nat :=
  if is_left_source then op.2.2.2.1 else op.2.1

/-- Destination-range end of an opcode as seen from one side. -/
def dstEnd (is_left_source : Bool) (op : Opcode) : Nat :=
  if is_left_source then op.2.2.2.2 else op.2.2.1

/-- Core loop of `get_mapped_index`: scan the opcodes for the first one whose
(inclusive) source range contains `py_idx`; inside an `equal` opcode translate
by offset and clamp to the destination end, inside any other opcode snap to
the destination start; `-1` when no opcode contains the position. -/
def get_mapped_index_core (opcodes : List Opcode) (is_left_source : Bool) (py_idx : Nat) :
    Int :=
  match opcodes with
  | [] => -1
  | op :: rest =>
    if srcStart is_left_source op ≤ py_idx ∧ py_idx ≤ srcEnd is_left_source op then
      if op.1 = Tag.equal then
        let mapped := dstStart is_left_source op + (py_idx - srcStart is_left_source op)
        if dstEnd is_left_source op < mapped then (dstEnd is_left_source op : Int)
        else (mapped : Int)
      else (dstStart is_left_source op : Int)
    else get_mapped_index_core rest is_left_source py_idx

/-- The enclosing opcode: the first opcode in scan order whose inclusive
source range contains the position (this is "the block whose src range
contains position_in_src" of the scan the spec describes). -/
def findEnclosing (opcodes : List Opcode) (is_left_source : Bool) (py_idx : Nat) :
    Option Opcode :=
  opcodes.find?
    (fun op => srcStart is_left_source op ≤ py_idx ∧ py_idx ≤ srcEnd is_left_source op)

/-- C3: characterization of the position translation.  If the enclosing opcode
is Equal, the mapped position is `dst_start + (p - src_start)` clamped to
`dst_end`; if it is Insert/Delete/Replace, the mapped position is `dst_start`;
and if `p` exceeds every opcode's source range the translation returns the
sentinel `-1`, which is negative and therefore distinct from every valid
position (in particular never position zero). -/
theorem get_mapped_index_core_spec (opcodes : List Opcode) (is_left_source : Bool)
    (py_idx : Nat) :
    (∀ op, findEnclosing opcodes is_left_source py_idx = some op → op.1 = Tag.equal →
      get_mapped_index_core opcodes is_left_source py_idx =
        (min (dstStart is_left_source op + (py_idx - srcStart is_left_source op))
          (dstEnd is_left_source op) : Nat)) ∧
    (∀ op, findEnclosing opcodes is_left_source py_idx = some op → ¬ op.1 = Tag.equal →
      get_mapped_index_core opcodes is_left_source py_idx =
        (dstStart is_left_source op : Nat)) ∧
    ((∀ op ∈ opcodes, srcEnd is_left_source op < py_idx) →
      get_mapped_index_core opcodes is_left_source py_idx = -1 ∧
        get_mapped_index_core opcodes is_left_source py_idx < 0 ∧
        ∀ n : Nat, get_mapped_index_core opcodes is_left_source py_idx ≠ (n : Int)) := by
  induction opcodes with
  | nil =>
    refine ⟨?_, ?_, ?_⟩
    · intro op hop
      simp [findEnclosing] at hop
    · intro op hop
      simp [findEnclosing] at hop
    · intro _
      refine ⟨rfl, ?_, ?_⟩
      · show (-1 : Int) < 0
        decide
      · intro n
        show (-1 : Int) ≠ (n : Int)
        omega
  | cons op0 rest ih =>
    by_cases hin : srcStart is_left_source op0 ≤ py_idx ∧ py_idx ≤ srcEnd is_left_source op0
    · have hfind : findEnclosing (op0 :: rest) is_left_source py_idx = some op0 := by
        simp [findEnclosing, List.find?_cons, hin]
      refine ⟨?_, ?_, ?_⟩
      · intro op hop heq
        rw [hfind] at hop
        injection hop with hop
        subst hop
        simp only [get_mapped_index_core, if_pos hin, if_pos heq]
        split
        · rename_i hlt
          omega
        · rename_i hlt
          omega
      · intro op hop hne
        rw [hfind] at hop
        injection hop with hop
        subst hop
        simp only [get_mapped_index_core, if_pos hin, if_neg hne]
      · intro hall
        have := hall op0 (by simp)
        omega
    · have hfind : findEnclosing (op0 :: rest) is_left_source py_idx =
          findEnclosing rest is_left_source py_idx := by
        simp [findEnclosing, List.find?_cons, hin]
      have hstep : get_mapped_index_core (op0 :: rest) is_left_source py_idx =
          get_mapped_index_core rest is_left_source py_idx := by
        simp only [get_mapped_index_core, if_neg hin]
      refine ⟨?_, ?_, ?_⟩
      · intro op hop heq
        rw [hfind] at hop
        rw [hstep]
        exact ih.1 op hop heq
      · intro op hop hne
        rw [hfind] at hop
        rw [hstep]
        exact ih.2.1 op hop hne
      · intro hall
        rw [hstep]
        exact ih.2.2 (fun op hop => hall op (List.mem_cons_of_mem _ hop))

/-- C3 witness: the three cases exercised concretely on the opcode list of
`diff("AXB", "AB")`: position 0 sits in the leading Equal opcode and maps with
offset, position 2 sits in the Delete opcode and snaps to its destination
start, position 9 exceeds every range and yields `-1`. -/
theorem get_mapped_index_core_spec_witness :
    get_mapped_index_core [(Tag.equal, 0, 1, 0, 1), (Tag.delete, 1, 2, 1, 1),
        (Tag.equal, 2, 3, 1, 2)] true 0 = 0 ∧
    get_mapped_index_core [(Tag.equal, 0, 1, 0, 1), (Tag.delete, 1, 2, 1, 1),
        (Tag.equal, 2, 3, 1, 2)] true 2 = 1 ∧
    get_mapped_index_core [(Tag.equal, 0, 1, 0, 1), (Tag.delete, 1, 2, 1, 1),
        (Tag.equal, 2, 3, 1, 2)] true 9 = -1 := by
  refine ⟨?_, ?_, ?_⟩
  · have h := (get_mapped_index_core_spec [(Tag.equal, 0, 1, 0, 1), (Tag.delete, 1, 2, 1, 1),
      (Tag.equal, 2, 3, 1, 2)] true 0).1 (Tag.equal, 0, 1, 0, 1) (by decide) rfl
    rw [h]
    decide
  · have h := (get_mapped_index_core_spec [(Tag.equal, 0, 1, 0, 1), (Tag.delete, 1, 2, 1, 1),
      (Tag.equal, 2, 3, 1, 2)] true 2).2.1 (Tag.delete, 1, 2, 1, 1) (by decide) (by decide)
    rw [h]
    decide
  · exact ((get_mapped_index_core_spec [(Tag.equal, 0, 1, 0, 1), (Tag.delete, 1, 2, 1, 1),
      (Tag.equal, 2, 3, 1, 2)] true 9).2.2 (by decide)).1

/-! ## Entry-to-box resolution (`TextToBBoxMapper.get_page_text_map` and
`find_bboxes`, source lines 1332-1416).  The per-page OCR data is an external
input and is modeled as a function from page number to block list. -/

/-- One OCR block of a page: text, bounding box `(x1, y1, x2, y2)` and label. -/
structure OCRBlock where
  text : List Char
  bbox : Int × Int × Int × Int
  block_label : String
deriving DecidableEq

/-- One entry of `find_bboxes`' result list. -/
structure ResultBox where
  bbox : Int × Int × Int × Int
  page : Nat
  label : String
  sort_key : Nat × Nat
deriving DecidableEq

/-- UTF-8 byte length of a string (`len(chunk.encode('utf-8'))`). -/
def utf8Len (s : List Char) : Nat :=
  (s.map Char.utf8Size).sum

/-- `get_page_text_map(page_num)`: the page's blocks, their concatenated text,
and the character-to-block-index map (`char_map`). -/
def get_page_text_map (ocr : Nat → List OCRBlock) (page_num : Nat) :
    List OCRBlock × List Char × List Nat :=
  let blocks := ocr page_num
  (blocks, (blocks.map OCRBlock.text).flatten,
    (blocks.enum.map (fun p => List.replicate p.2.text.length p.1)).flatten)

/-- Accumulator of `find_bboxes`' double loop: the `(page, block_idx)` keys
already recorded and the result list in recording order. -/
structure FBState where
  matched : List (Nat × Nat)
  result : List ResultBox

/-- Record one touched block unless its `(page, block_idx)` key is already
present (`matched_block_indices` deduplication). -/
def touchBlock (page_num : Nat) (blocks : List OCRBlock) (st : FBState) (block_idx : Nat) :
    FBState :=
  if (page_num, block_idx) ∈ st.matched then st
  else
    match blocks.get? block_idx with
    | none => st
    | some b =>
      ⟨(page_num, block_idx) :: st.matched,
        st.result ++ [⟨b.bbox, page_num, b.block_label, (page_num, block_idx)⟩]⟩

/-- Process one matching run `(i, j, n)`: skip empty runs, noise-filter short
pure-ASCII matches (a single CJK character is kept because its UTF-8 length
exceeds its character count), then record every block the run touches. -/
def processRun (page_num : Nat) (blocks : List OCRBlock) (char_map : List Nat)
    (clean_entry : List Char) (st : FBState) (run : Nat × Nat × Nat) : FBState :=
  let n := run.2.2
  if n = 0 then st
  else
    let chunk := pySlice clean_entry run.1 (run.1 + n)
    if n < 2 ∧ utf8Len chunk = chunk.length then st
    else (pySlice char_map run.2.1 (run.2.1 + n)).foldl (touchBlock page_num blocks) st

/-- Process one page: skip pages with no OCR text, otherwise walk the matching
blocks of `SequenceMatcher(None, clean_entry, page_text, autojunk=False)`. -/
def processPage (ocr : Nat → List OCRBlock) (clean_entry : List Char) (st : FBState)
    (page_num : Nat) : FBState :=
  let m := get_page_text_map ocr page_num
  if m.2.1 = [] then st
  else (get_matching_blocks clean_entry m.2.1).foldl
    (processRun page_num m.1 m.2.2 clean_entry) st

/-- Lexicographic order on the `(page, block_idx)` sort keys. -/
def keyLe (a b : Nat × Nat) : Prop :=
  a.1 < b.1 ∨ (a.1 = b.1 ∧ a.2 ≤ b.2)

instance : DecidableRel keyLe := by
  intro a b
  unfold keyLe
  infer_instance

instance : IsTotal (Nat × Nat) keyLe := by
  refine ⟨fun a b => ?_⟩
  unfold keyLe
  omega

instance : IsTrans (Nat × Nat) keyLe := by
  refine ⟨fun a b c hab hbc => ?_⟩
  unfold keyLe at *
  omega

/-- The final `result_boxes.sort(key=lambda x: x["sort_key"])` comparison. -/
def rbLe (r r' : ResultBox) : Prop := keyLe r.sort_key r'.sort_key

instance : DecidableRel rbLe := by
  intro r r'
  unfold rbLe
  infer_instance

instance : IsTotal ResultBox rbLe :=
  ⟨fun r r' => IsTotal.total (r := keyLe) r.sort_key r'.sort_key⟩

instance : IsTrans ResultBox rbLe :=
  ⟨fun _ _ _ hab hbc => IsTrans.trans (r := keyLe) _ _ _ hab hbc⟩

/-- `find_bboxes(entry_text, page_nums)` (source lines 1352-1416). -/
def find_bboxes (ocr : Nat → List OCRBlock) (entry_text : List Char)
    (page_nums : List Nat) : List ResultBox :=
  let clean_entry := pyStrip entry_text
  if clean_entry = [] then []
  else
    let final := page_nums.foldl (processPage ocr clean_entry) ⟨[], []⟩
    final.result.insertionSort rbLe

/-- A generic fold-invariant helper. -/
theorem foldl_preserves {α β : Type} (P : β → Prop) (f : β → α → β)
    (hf : ∀ st x, P st → P (f st x)) :
    ∀ (l : List α) (st : β), P st → P (l.foldl f st) := by
  intro l
  induction l with
  | nil => intro st h; exact h
  | cons x xs ih => intro st h; exact ih (f st x) (hf st x h)

/-- The invariant carried through `find_bboxes`' loops: recorded keys are
pairwise distinct, every recorded key is in the matched set, and every
recorded box's sort key starts with its page. -/
def FBInv (st : FBState) : Prop :=
  (st.result.map ResultBox.sort_key).Nodup ∧
  (∀ r ∈ st.result, r.sort_key ∈ st.matched) ∧
  (∀ r ∈ st.result, r.sort_key.1 = r.page)

theorem touchBlock_inv (page_num : Nat) (blocks : List OCRBlock) :
    ∀ (st : FBState) (block_idx : Nat), FBInv st →
      FBInv (touchBlock page_num blocks st block_idx) := by
  intro st block_idx hinv
  obtain ⟨hnd, hmem, hpage⟩ := hinv
  unfold touchBlock
  by_cases hk : (page_num, block_idx) ∈ st.matched
  · simpa [hk] using ⟨hnd, hmem, hpage⟩
  · simp only [if_neg hk]
    cases hget : blocks.get? block_idx with
    | none => exact ⟨hnd, hmem, hpage⟩
    | some b =>
      refine ⟨?_, ?_, ?_⟩
      · rw [List.map_append, List.nodup_append]
        refine ⟨hnd, by simp, ?_⟩
        intro k hk1 hk2
        simp at hk2
        obtain ⟨r, hr, hrk⟩ := List.mem_map.mp hk1
        subst hk2
        exact hk ((hrk ▸ hmem r hr))
      · intro r hr
        rcases List.mem_append.mp hr with hr | hr
        · exact List.mem_cons_of_mem _ (hmem r hr)
        · simp at hr
          subst hr
          simp
      · intro r hr
        rcases List.mem_append.mp hr with hr | hr
        · exact hpage r hr
        · simp at hr
          subst hr
          rfl

theorem processRun_inv (page_num : Nat) (blocks : List OCRBlock) (char_map : List Nat)
    (clean_entry : List Char) :
    ∀ (st : FBState) (run : Nat × Nat × Nat), FBInv st →
      FBInv (processRun page_num blocks char_map clean_entry st run) := by
  intro st run hinv
  unfold processRun
  dsimp only
  split
  · exact hinv
  · split
    · exact hinv
    · exact foldl_preserves FBInv _ (touchBlock_inv page_num blocks) _ st hinv

theorem processPage_inv (ocr : Nat → List OCRBlock) (clean_entry : List Char) :
    ∀ (st : FBState) (page_num : Nat), FBInv st →
      FBInv (processPage ocr clean_entry st page_num) := by
  intro st page_num hinv
  unfold processPage
  dsimp only
  split
  · exact hinv
  · exact foldl_preserves FBInv _
      (processRun_inv page_num _ _ clean_entry) _ st hinv

/-- C6 (amended): `find_bboxes` records each touched OCR block at most once —
its output's `(page, block_index)` keys are pairwise distinct — and the output
is sorted ascending by `(page number, block index)` (grouped by page number,
then by block index within each page), with every entry's key starting with
its page.  (The claim's "grouped by the input page order" is corrected to
ascending page number; see the counterexample.) -/
theorem find_bboxes_sorted_dedup (ocr : Nat → List OCRBlock) (entry_text : List Char)
    (page_nums : List Nat) :
    ((find_bboxes ocr entry_text page_nums).map ResultBox.sort_key).Sorted keyLe ∧
    ((find_bboxes ocr entry_text page_nums).map ResultBox.sort_key).Nodup ∧
    ∀ r ∈ find_bboxes ocr entry_text page_nums, r.sort_key.1 = r.page := by
  unfold find_bboxes
  dsimp only
  split
  · simp
  · have hinv : FBInv (page_nums.foldl (processPage ocr (pyStrip entry_text)) ⟨[], []⟩) := by
      refine foldl_preserves FBInv _ (processPage_inv ocr (pyStrip entry_text)) page_nums
        ⟨[], []⟩ ?_
      refine ⟨by simp, by simp, by simp⟩
    obtain ⟨hnd, _, hpage⟩ := hinv
    have hperm : (List.insertionSort rbLe
        (page_nums.foldl (processPage ocr (pyStrip entry_text)) ⟨[], []⟩).result).Perm
        (page_nums.foldl (processPage ocr (pyStrip entry_text)) ⟨[], []⟩).result :=
      List.perm_insertionSort rbLe _
    refine ⟨?_, ?_, ?_⟩
    · have hs := List.sorted_insertionSort rbLe
        (page_nums.foldl (processPage ocr (pyStrip entry_text)) ⟨[], []⟩).result
      exact (List.pairwise_map).mpr hs
    · exact ((hperm.map ResultBox.sort_key).nodup_iff).mpr hnd
    · intro r hr
      exact hpage r (hperm.mem_iff.mp hr)

/-- The ordering the claim asserts: output grouped by the *input* page order
(position of the page in `page_nums`), then by block index. -/
def groupedByInputPageOrder (page_nums : List Nat) (out : List ResultBox) : Prop :=
  (out.map (fun r => (page_nums.indexOf r.page, r.sort_key.2))).Sorted keyLe

/-- A two-page OCR corpus for the counterexample: the entry's second character
is on page 1 and its first character on page 2. -/
def ocrCE : Nat → List OCRBlock := fun p =>
  if p = 1 then [⟨['好'], (0, 0, 1, 1), "text"⟩]
  else if p = 2 then [⟨['你'], (5, 5, 6, 6), "text"⟩]
  else []

/-- C6 counterexample: with input page order `[2, 1]`, `find_bboxes` returns
the page-1 block before the page-2 block (its final sort is by page *number*),
so the output is not grouped by the input page order. -/
theorem find_bboxes_not_input_page_order :
    (find_bboxes ocrCE ['你', '好'] [2, 1]).map ResultBox.page = [1, 2] ∧
    ¬ groupedByInputPageOrder [2, 1] (find_bboxes ocrCE ['你', '好'] [2, 1]) := by
  constructor
  · decide
  · unfold groupedByInputPageOrder
    decide

/-! ## Box merging (`BBoxMerger`, source lines 1419-1586).

Input boxes carry `(x1, y1, x2, y2)` pixel bounds; the merger normalizes them
to `{x, y, w, h, r, b, page}` records, groups by page (the per-page lists keep
input order, the pages are visited in sorted order), chooses vertical or
horizontal folding per page, and folds each page's boxes left to right,
either absorbing the next box into the accumulator's union rectangle or
flushing the accumulator.  Only the merge *condition* differs between the two
modes; the union rectangle is identical.  The vertical same-column test uses
the exact rational centers `x + w/2`. -/

/-- One input box of `BBoxMerger.merge`. -/
structure InBox where
  bbox : Int × Int × Int × Int
  page : Nat
  label : String
deriving DecidableEq

/-- A normalized box `{x, y, w, h, r, b, page}` as built by the clean-up loop. -/
structure CleanBox where
  x : Int
  y : Int
  w : Int
  h : Int
  r : Int
  b : Int
  page : Nat
deriving DecidableEq, Inhabited

/-- Clean-up of one input box (`x, y, x2, y2 = bx[0..3]`, then width/height). -/
def cleanOf (bx : InBox) : CleanBox :=
  ⟨bx.bbox.1, bx.bbox.2.1, bx.bbox.2.2.1 - bx.bbox.1, bx.bbox.2.2.2 - bx.bbox.2.1,
    bx.bbox.2.2.1, bx.bbox.2.2.2, bx.page⟩

/-- The union rectangle of the accumulator and the next box (identical in both
merge modes; the accumulator's page is kept). -/
def unionBox (curr nex : CleanBox) : CleanBox :=
  let new_x := min curr.x nex.x
  let new_y := min curr.y nex.y
  let new_r := max curr.r nex.r
  let new_b := max curr.b nex.b
  ⟨new_x, new_y, new_r - new_x, new_b - new_y, new_r, new_b, curr.page⟩

/-- Horizontal merge rule: left edges within 50 px and vertical gap below 50 px. -/
def hCond (curr nex : CleanBox) : Bool :=
  decide (|curr.x - nex.x| < 50 ∧ nex.y - curr.b < 50)

/-- Vertical merge rule: the rational horizontal centers `x + w/2` differ by
less than 20 px (same column). -/
def vCond (curr nex : CleanBox) : Bool :=
  decide (|((curr.x : ℚ) + (curr.w : ℚ) / 2) - ((nex.x : ℚ) + (nex.w : ℚ) / 2)| < 20)

/-- The shared fold of `_merge_horizontal` / `_merge_vertical`: absorb the next
box into the accumulator when the mode's condition holds, otherwise flush. -/
def mergeFold (cond : CleanBox → CleanBox → Bool) : CleanBox → List CleanBox → List CleanBox
  | curr, [] => [curr]
  | curr, nex :: rest =>
    if cond curr nex then mergeFold cond (unionBox curr nex) rest
    else curr :: mergeFold cond nex rest

/-- `BBoxMerger._merge_horizontal`. -/
def merge_horizontal (boxes : List InBox) : List CleanBox :=
  match boxes.map cleanOf with
  | [] => []
  | c :: cs => mergeFold hCond c cs

/-- `BBoxMerger._merge_vertical`. -/
def merge_vertical (boxes : List InBox) : List CleanBox :=
  match boxes.map cleanOf with
  | [] => []
  | c :: cs => mergeFold vCond c cs

/-- Per-page body of `BBoxMerger.merge`: skip empty groups, choose the mode
(`vertical` if any box carries the `vertical_text` label), fold. -/
def mergePage (page_boxes : List InBox) : List CleanBox :=
  if page_boxes = [] then []
  else if page_boxes.any (fun bx => bx.label == "vertical_text") then
    merge_vertical page_boxes
  else merge_horizontal page_boxes

/-- `BBoxMerger.merge(boxes)`: group by page, visit pages in sorted order,
concatenate the per-page results. -/
def BBoxMerger_merge (boxes : List InBox) : List CleanBox :=
  if boxes = [] then []
  else
    let pages := ((boxes.map InBox.page).dedup).insertionSort (· ≤ ·)
    (pages.map (fun p => mergePage (boxes.filter (fun bx => bx.page == p)))).flatten

/-- The union rectangle of a nonempty run of boxes, folded left to right as
the merge loop does. -/
def unionRun : List CleanBox → CleanBox
  | [] => default
  | c :: cs => cs.foldl unionBox c

/-- Geometric containment of a normalized box in a region rectangle. -/
def containsBox (reg cb : CleanBox) : Prop :=
  reg.x ≤ cb.x ∧ reg.y ≤ cb.y ∧ cb.r ≤ reg.r ∧ cb.b ≤ reg.b

theorem containsBox_refl (cb : CleanBox) : containsBox cb cb := by
  unfold containsBox
  omega

theorem containsBox_trans {a b c : CleanBox} (h1 : containsBox a b) (h2 : containsBox b c) :
    containsBox a c := by
  unfold containsBox at *
  omega

theorem unionBox_contains_left (a c : CleanBox) : containsBox (unionBox a c) a := by
  unfold containsBox unionBox
  dsimp only
  omega

theorem unionBox_contains_right (a c : CleanBox) : containsBox (unionBox a c) c := by
  unfold containsBox unionBox
  dsimp only
  omega

theorem foldl_union_contains_init (t : List CleanBox) :
    ∀ (c : CleanBox), containsBox (t.foldl unionBox c) c := by
  induction t with
  | nil => intro c; exact containsBox_refl c
  | cons x t ih =>
    intro c
    simp only [List.foldl_cons]
    exact containsBox_trans (ih (unionBox c x)) (unionBox_contains_left c x)

theorem foldl_union_contains_mem (t : List CleanBox) :
    ∀ (c cb : CleanBox), cb ∈ t → containsBox (t.foldl unionBox c) cb := by
  induction t with
  | nil => intro c cb h; simp at h
  | cons x t ih =>
    intro c cb h
    simp only [List.foldl_cons]
    rcases List.mem_cons.mp h with h | h
    · subst h
      exact containsBox_trans (foldl_union_contains_init t (unionBox c cb))
        (unionBox_contains_right c cb)
    · exact ih (unionBox c x) cb h

theorem unionRun_contains (run : List CleanBox) (hne : run ≠ []) :
    ∀ cb ∈ run, containsBox (unionRun run) cb := by
  cases run with
  | nil => exact absurd rfl hne
  | cons c cs =>
    intro cb hcb
    rcases List.mem_cons.mp hcb with h | h
    · subst h
      exact foldl_union_contains_init cs cb
    · exact foldl_union_contains_mem cs c cb h

theorem unionRun_concat (pre : List CleanBox) (hne : pre ≠ []) (nex : CleanBox) :
    unionRun (pre ++ [nex]) = unionBox (unionRun pre) nex := by
  cases pre with
  | nil => exact absurd rfl hne
  | cons c cs =>
    simp only [unionRun, List.cons_append, List.foldl_append, List.foldl_cons,
      List.foldl_nil]

theorem mergeFold_runs (cond : CleanBox → CleanBox → Bool) :
    ∀ (rest pre : List CleanBox), pre ≠ [] →
      ∃ runs : List (List CleanBox),
        (∀ r ∈ runs, r ≠ []) ∧
        runs.flatten = pre ++ rest ∧
        mergeFold cond (unionRun pre) rest = runs.map unionRun := by
  intro rest
  induction rest with
  | nil =>
    intro pre hne
    refine ⟨[pre], ?_, by simp, by simp [mergeFold]⟩
    intro r hr
    simp at hr
    subst hr
    exact hne
  | cons nex rest' ih =>
    intro pre hne
    by_cases hc : cond (unionRun pre) nex = true
    · obtain ⟨runs, hruns, hflat, hout⟩ := ih (pre ++ [nex]) (by simp)
      rw [unionRun_concat pre hne nex] at hout
      refine ⟨runs, hruns, ?_, ?_⟩
      · rw [hflat]
        simp
      · simp only [mergeFold, if_pos hc]
        exact hout
    · obtain ⟨runs', hruns', hflat', hout'⟩ := ih [nex] (by simp)
      refine ⟨pre :: runs', ?_, ?_, ?_⟩
      · intro r hr
        rcases List.mem_cons.mp hr with h | h
        · subst h; exact hne
        · exact hruns' r h
      · simp only [List.flatten_cons, hflat']
        simp
      · simp only [mergeFold, if_neg hc, List.map_cons]
        have hout2 : mergeFold cond nex rest' = List.map unionRun runs' := hout'
        rw [hout2]

theorem mergePage_runs (pbs : List InBox) :
    ∃ runs : List (List CleanBox),
      (∀ r ∈ runs, r ≠ []) ∧
      runs.flatten = pbs.map cleanOf ∧
      mergePage pbs = runs.map unionRun := by
  unfold mergePage
  by_cases hemp : pbs = []
  · subst hemp
    exact ⟨[], by simp, by simp, by simp⟩
  · simp only [if_neg hemp]
    cases hmap : pbs.map cleanOf with
    | nil =>
      exact absurd (List.map_eq_nil_iff.mp hmap) hemp
    | cons c cs =>
      by_cases hv : pbs.any (fun bx => bx.label == "vertical_text") = true
      · obtain ⟨runs, h1, h2, h3⟩ := mergeFold_runs vCond cs [c] (by simp)
        refine ⟨runs, h1, by simp [h2, hmap], ?_⟩
        simp only [hv, if_pos]
        unfold merge_vertical
        rw [hmap]
        exact h3
      · obtain ⟨runs, h1, h2, h3⟩ := mergeFold_runs hCond cs [c] (by simp)
        refine ⟨runs, h1, by simp [h2, hmap], ?_⟩
        simp only [Bool.not_eq_true] at hv
        simp only [hv, Bool.false_eq_true, if_false]
        unfold merge_horizontal
        rw [hmap]
        exact h3

theorem pagesMerge_runs (boxes : List InBox) :
    ∀ (ps : List Nat),
      ∃ runs : List (List CleanBox),
        (∀ r ∈ runs, r ≠ []) ∧
        runs.flatten =
          (ps.map (fun p => (boxes.filter (fun bx => bx.page == p)).map cleanOf)).flatten ∧
        (ps.map (fun p => mergePage (boxes.filter (fun bx => bx.page == p)))).flatten =
          runs.map unionRun := by
  intro ps
  induction ps with
  | nil => exact ⟨[], by simp, by simp, by simp⟩
  | cons p ps' ih =>
    obtain ⟨runsRest, hr1, hr2, hr3⟩ := ih
    obtain ⟨runsP, hp1, hp2, hp3⟩ := mergePage_runs (boxes.filter (fun bx => bx.page == p))
    refine ⟨runsP ++ runsRest, ?_, ?_, ?_⟩
    · intro r hr
      rcases List.mem_append.mp hr with h | h
      · exact hp1 r h
      · exact hr1 r h
    · simp only [List.map_cons, List.flatten_cons, List.flatten_append, hp2, hr2]
    · simp only [List.map_cons, List.flatten_cons, List.map_append, hp3, hr3]

theorem partitionPerm :
    ∀ (ps : List Nat) (bs : List InBox), ps.Nodup → (∀ bx ∈ bs, bx.page ∈ ps) →
      ((ps.map (fun p => bs.filter (fun bx => bx.page == p))).flatten).Perm bs := by
  intro ps
  induction ps with
  | nil =>
    intro bs _ hmem
    cases bs with
    | nil => simp
    | cons b bt => exact absurd (hmem b (by simp)) (by simp)
  | cons p ps' ih =>
    intro bs hnd hmem
    have hp_not : p ∉ ps' := (List.nodup_cons.mp hnd).1
    have hnd' : ps'.Nodup := (List.nodup_cons.mp hnd).2
    have hfix : ∀ q ∈ ps',
        bs.filter (fun bx => bx.page == q) =
          (bs.filter (fun bx => !(bx.page == p))).filter (fun bx => bx.page == q) := by
      intro q hq
      rw [List.filter_filter]
      refine (List.filter_congr ?_).symm
      intro bx _
      have hqp : ¬ q = p := fun h => hp_not (h ▸ hq)
      by_cases hbq : bx.page = q
      · have hbp : ¬ bx.page = p := fun h => hqp (by rw [← hbq, h])
        simp [hbq, hbp, hqp]
      · simp [hbq]
    have hmem' : ∀ bx ∈ bs.filter (fun bx => !(bx.page == p)), bx.page ∈ ps' := by
      intro bx hbx
      have h1 := List.mem_filter.mp hbx
      have h2 := hmem bx h1.1
      have h3 : ¬ bx.page = p := by simpa using h1.2
      rcases List.mem_cons.mp h2 with h | h
      · exact absurd h h3
      · exact h
    have hIH := ih (bs.filter (fun bx => !(bx.page == p))) hnd' hmem'
    have hmapeq :
        ps'.map (fun q => bs.filter (fun bx => bx.page == q)) =
          ps'.map (fun q => (bs.filter (fun bx => !(bx.page == p))).filter
            (fun bx => bx.page == q)) := by
      apply List.map_congr_left
      intro q hq
      exact hfix q hq
    have heq : ((p :: ps').map (fun q => bs.filter (fun bx => bx.page == q))).flatten =
        bs.filter (fun bx => bx.page == p) ++
          (ps'.map (fun q => (bs.filter (fun bx => !(bx.page == p))).filter
            (fun bx => bx.page == q))).flatten := by
      simp only [List.map_cons, List.flatten_cons, hmapeq]
    rw [heq]
    exact (hIH.append_left _).trans (List.filter_append_perm _ bs)

theorem length_le_flatten_length {α : Type} :
    ∀ (runs : List (List α)), (∀ r ∈ runs, r ≠ []) → runs.length ≤ runs.flatten.length := by
  intro runs
  induction runs with
  | nil => intro _; simp
  | cons r rs ih =>
    intro h
    have hr : r ≠ [] := h r (by simp)
    have hlen : 1 ≤ r.length := by
      cases r with
      | nil => exact absurd rfl hr
      | cons _ _ => simp
    have := ih (fun r' hr' => h r' (List.mem_cons_of_mem _ hr'))
    simp only [List.length_cons, List.flatten_cons, List.length_append]
    omega

/-- C7: `BBoxMerger.merge` partitions its input.  There is a family of
nonempty runs of (normalized) input boxes such that: the output is exactly the
list of union rectangles of the runs; the runs jointly contain every input box
exactly once (their concatenation is a permutation of the normalized input
list, so no box is dropped or duplicated); each output region geometrically
contains every input box of its run (it is never smaller than any contributing
box); and the number of output regions is at most the number of input boxes. -/
theorem BBoxMerger_merge_partition (boxes : List InBox) :
    ∃ runs : List (List CleanBox),
      (∀ r ∈ runs, r ≠ []) ∧
      BBoxMerger_merge boxes = runs.map unionRun ∧
      runs.flatten.Perm (boxes.map cleanOf) ∧
      (∀ r ∈ runs, ∀ cb ∈ r, containsBox (unionRun r) cb) ∧
      (BBoxMerger_merge boxes).length ≤ boxes.length := by
  by_cases hemp : boxes = []
  · subst hemp
    exact ⟨[], by simp, by simp [BBoxMerger_merge], by simp, by simp, by simp [BBoxMerger_merge]⟩
  · have hpages_nodup : (((boxes.map InBox.page).dedup).insertionSort (· ≤ ·)).Nodup :=
      (List.perm_insertionSort (· ≤ ·) _).nodup_iff.mpr (List.nodup_dedup _)
    have hpages_mem : ∀ bx ∈ boxes,
        bx.page ∈ ((boxes.map InBox.page).dedup).insertionSort (· ≤ ·) := by
      intro bx hbx
      refine (List.perm_insertionSort (· ≤ ·) _).mem_iff.mpr ?_
      exact List.mem_dedup.mpr (List.mem_map_of_mem InBox.page hbx)
    obtain ⟨runs, h1, h2, h3⟩ :=
      pagesMerge_runs boxes (((boxes.map InBox.page).dedup).insertionSort (· ≤ ·))
    have hmerge : BBoxMerger_merge boxes = runs.map unionRun := by
      unfold BBoxMerger_merge
      simp only [if_neg hemp]
      exact h3
    have hflatten_perm : runs.flatten.Perm (boxes.map cleanOf) := by
      rw [h2]
      have hmm :
          (((boxes.map InBox.page).dedup).insertionSort (· ≤ ·)).map
              (fun p => (boxes.filter (fun bx => bx.page == p)).map cleanOf) =
            ((((boxes.map InBox.page).dedup).insertionSort (· ≤ ·)).map
              (fun p => boxes.filter (fun bx => bx.page == p))).map (List.map cleanOf) := by
        rw [List.map_map]
        rfl
      rw [hmm, ← List.map_flatten]
      exact (partitionPerm _ boxes hpages_nodup hpages_mem).map cleanOf
    refine ⟨runs, h1, hmerge, hflatten_perm, ?_, ?_⟩
    · intro r hr
      exact unionRun_contains r (h1 r hr)
    · rw [hmerge, List.length_map]
      have hlef := length_le_flatten_length runs h1
      have hperm_len := hflatten_perm.length_eq
      rw [List.length_map] at hperm_len
      omega

/-! ## Stitch-size prediction (`ImageStitcher.predict_size`, source lines
1589-1611).  A pure function of the merged region rectangles: no page image is
consulted.  On integer box coordinates the source's final `int(...)`
conversions are the identity, so the embedding works directly in `Int`. -/

/-- Python `sum` over a list of integers. -/
def sumInts (l : List Int) : Int :=
  l.foldl (· + ·) 0

/-- Python `max` over a list of integers (the source only applies it to
nonempty box lists; the empty case is unreachable there). -/
def maxInts : List Int → Int
  | [] => 0
  | x :: xs => xs.foldl max x

/-- `predict_size(boxes, is_vertical_text)`: predicted `(width, height)` of
the stitched image, with 10 px padding between tiles and a 10 px canvas margin
on each side (`+20` per dimension). -/
def predict_size (boxes : List CleanBox) (is_vertical_text : Bool) : Int × Int :=
  if boxes = [] then (0, 0)
  else
    let padding : Int := 10
    if is_vertical_text then
      let max_h := maxInts (boxes.map CleanBox.h)
      let total_w := sumInts (boxes.map CleanBox.w) + padding * ((boxes.length : Int) - 1)
      (total_w + 20, max_h + 20)
    else
      let max_w := maxInts (boxes.map CleanBox.w)
      let total_h := sumInts (boxes.map CleanBox.h) + padding * ((boxes.length : Int) - 1)
      (max_w + 20, total_h + 20)

theorem foldl_add_eq (l : List Int) : ∀ (a : Int), l.foldl (· + ·) a = a + l.sum := by
  induction l with
  | nil => intro a; simp
  | cons x xs ih =>
    intro a
    simp only [List.foldl_cons, List.sum_cons, ih (a + x)]
    ring

theorem sumInts_eq_sum (l : List Int) : sumInts l = l.sum := by
  unfold sumInts
  rw [foldl_add_eq]
  ring

theorem foldl_max_spec (xs : List Int) :
    ∀ (a : Int), (xs.foldl max a = a ∨ xs.foldl max a ∈ xs) ∧
      a ≤ xs.foldl max a ∧ ∀ v ∈ xs, v ≤ xs.foldl max a := by
  induction xs with
  | nil => intro a; exact ⟨Or.inl rfl, le_refl a, by simp⟩
  | cons x xs ih =>
    intro a
    obtain ⟨hmem, hinit, hub⟩ := ih (max a x)
    simp only [List.foldl_cons]
    refine ⟨?_, ?_, ?_⟩
    · rcases hmem with h | h
      · rcases max_choice a x with hc | hc
        · exact Or.inl (h.trans hc)
        · refine Or.inr ?_
          rw [h, hc]
          exact List.mem_cons_self x xs
      · exact Or.inr (List.mem_cons_of_mem x h)
    · exact le_trans (le_max_left a x) hinit
    · intro v hv
      rcases List.mem_cons.mp hv with h | h
      · subst h
        exact le_trans (le_max_right a v) hinit
      · exact hub v h

theorem maxInts_spec (l : List Int) (hne : l ≠ []) :
    maxInts l ∈ l ∧ ∀ v ∈ l, v ≤ maxInts l := by
  cases l with
  | nil => exact absurd rfl hne
  | cons x xs =>
    obtain ⟨hmem, hinit, hub⟩ := foldl_max_spec xs x
    refine ⟨?_, ?_⟩
    · rcases hmem with h | h
      · simp only [maxInts, h]
        exact List.mem_cons_self x xs
      · exact List.mem_cons_of_mem x h
    · intro v hv
      rcases List.mem_cons.mp hv with h | h
      · subst h
        exact hinit
      · exact hub v h

/-- C8: `predict_size` is pure arithmetic over the region rectangles with a
fixed 10 px inter-tile padding and a 10 px canvas margin per side: for a
nonempty list of `n` regions, vertical mode returns
`(sum of widths + 10*(n-1) + 20, max height + 20)` and horizontal mode returns
`(max width + 20, sum of heights + 10*(n-1) + 20)`, where "max" is an element
of the corresponding side list bounding every element. -/
theorem predict_size_formula (boxes : List CleanBox) (hne : boxes ≠ []) :
    (∃ M, M ∈ boxes.map CleanBox.h ∧ (∀ v ∈ boxes.map CleanBox.h, v ≤ M) ∧
      predict_size boxes true =
        ((boxes.map CleanBox.w).sum + 10 * ((boxes.length : Int) - 1) + 20, M + 20)) ∧
    (∃ M, M ∈ boxes.map CleanBox.w ∧ (∀ v ∈ boxes.map CleanBox.w, v ≤ M) ∧
      predict_size boxes false =
        (M + 20, (boxes.map CleanBox.h).sum + 10 * ((boxes.length : Int) - 1) + 20)) := by
  have hmaph : boxes.map CleanBox.h ≠ [] := by
    simpa using hne
  have hmapw : boxes.map CleanBox.w ≠ [] := by
    simpa using hne
  constructor
  · obtain ⟨hmem, hub⟩ := maxInts_spec (boxes.map CleanBox.h) hmaph
    refine ⟨maxInts (boxes.map CleanBox.h), hmem, hub, ?_⟩
    unfold predict_size
    simp only [if_neg hne, if_pos]
    rw [sumInts_eq_sum]
  · obtain ⟨hmem, hub⟩ := maxInts_spec (boxes.map CleanBox.w) hmapw
    refine ⟨maxInts (boxes.map CleanBox.w), hmem, hub, ?_⟩
    unfold predict_size
    simp only [if_neg hne, Bool.false_eq_true, if_false]
    rw [sumInts_eq_sum]

/-- C8 witness: two concrete regions, vertical mode: widths 5 and 3 with one
10 px gap and 20 px margin give width 38; the taller region (9) plus 20 px
margin gives height 29. -/
theorem predict_size_formula_witness :
    predict_size [⟨0, 0, 5, 7, 5, 7, 1⟩, ⟨0, 0, 3, 9, 3, 9, 1⟩] true = (38, 29) := by
  have h := (predict_size_formula [⟨0, 0, 5, 7, 5, 7, 1⟩, ⟨0, 0, 3, 9, 3, 9, 1⟩]
    (by decide)).1
  obtain ⟨M, hM, hub, heq⟩ := h
  have h9 : (9 : Int) ≤ M := hub 9 (by decide)
  have hM2 : M = 7 ∨ M = 9 := by simpa using hM
  have hM9 : M = 9 := by omega
  subst hM9
  exact heq.trans (by decide)

end OCRProof
